import Mathlib

/-!
Verification of the wordle_player repository's solver core against its
natural-language specification.

The definitions below are a shallow embedding of the Python sources:

* `naiveHint`            — the hint loop shared by `WordleGame.guess`
                           (src/libwordle/game.py, lines 137-148) and
                           `WordlePlayer.guess` (src/libwordle/player.py,
                           lines 143-155).  Both implementations use the
                           single-pass `elif c in solution` test; the
                           two-pass count-decrementing variant appears only
                           in comments in the source.
* `WordleGame.guess`     — the game-state transition of
                           `WordleGame.guess` (game.py lines 121-172).
                           The display-only `keyboard_colors` dictionary and
                           the rendering helpers are omitted; they are never
                           read by the game logic.
* `PlayerState` and its operations — the constraint tracker, candidate
  filter and guess selector of `WordlePlayer`
  (player.py lines 37-155).

Python `set`s are modelled as `Finset`; dictionaries as association lists
in insertion order; floats as `ℚ`; a raised exception as `none` / an
`Except.error` result.  Hints are modelled with the three-symbol type
`HSym` (the game exchanges them as the characters G/Y/B); feeding
`add_result` a symbol outside {G,Y,B} raises a `KeyError` in Python and is
outside this model.  Words are ASCII; the distinction between the regex
atoms `.` and `[^…]` on newline characters is ignored, and `str.lower` is
modelled on the ASCII range.
-/

/-- Hint symbols: Green / Yellow / Black. -/
inductive HSym where
  | G : HSym
  | Y : HSym
  | B : HSym
deriving DecidableEq, Repr

/-- Python `str.isspace` characters relevant to `str.strip()`. -/
def isPySpace (c : Char) : Bool :=
  c == ' ' || c == '\t' || c == '\n' || c == '\r' || c == '\x0b' || c == '\x0c'

/-- Python `str.strip()`: remove leading and trailing whitespace. -/
def pyStrip (s : String) : String :=
  ⟨((s.data.dropWhile isPySpace).reverse.dropWhile isPySpace).reverse⟩

/-- Python `str.lower()` (ASCII range). -/
def pyLower (s : String) : String :=
  ⟨s.data.map Char.toLower⟩

/-- `word.strip().lower()`, the first line of `WordleGame.guess`. -/
def normalizeWord (s : String) : String :=
  pyLower (pyStrip s)

/-- The hint loop used by both `WordleGame.guess` and `WordlePlayer.guess`:
position `i` is Green when `solution[i] == c`, else Yellow when
`c in solution`, else Black.  (The count-decrementing two-pass variant is
commented out in the source.) -/
def naiveHint (word solution : List Char) : List HSym :=
  (word.zip solution).map (fun p =>
    if p.2 = p.1 then HSym.G
    else if p.1 ∈ solution then HSym.Y
    else HSym.B)

/-- The state of `WordleGame`: solution, vocabulary, guess limit, win and
terminal flags, guesses made, and their hints (game.py lines 64-71).
Display-only fields (`keyboard_colors`, wordle metadata) are omitted. -/
structure GameState where
  solution : String
  validWords : List String
  maxGuesses : Nat
  won : Bool
  isFinished : Bool
  guesses : List String
  allHints : List (List HSym)
deriving DecidableEq, Repr

/-- `True` exactly on `Except.error`. -/
def exceptIsErr {ε α : Type} : Except ε α → Bool
  | Except.error _ => true
  | Except.ok _ => false

/-- `WordleGame.guess` (game.py lines 121-172).  The returned state is the
object after the call; an `Except.error` models the `AssertionError` raised
before any mutation.  Mutation order follows the source: append the guess,
set `is_finished` when the guess count reaches `max_guesses`, compute the
hint, append it, then set `won`/`is_finished` on an all-Green hint.
Vocabulary words are five letters long (enforced by the data loader), so
the hint list is modelled by `naiveHint` directly rather than by Python's
blank-padded five-slot list. -/
def WordleGame.guess (st : GameState) (input : String) :
    GameState × Except String (List HSym) :=
  let word := normalizeWord input
  if ¬ st.validWords.contains word then
    (st, Except.error ("Invalid word: " ++ word))
  else if st.isFinished then
    (st, Except.error "Game is over")
  else
    let st1 : GameState := { st with guesses := st.guesses ++ [word] }
    let st2 : GameState :=
      if st1.guesses.length = st1.maxGuesses then
        { st1 with isFinished := true }
      else st1
    let hints := naiveHint word.data st.solution.data
    let st3 : GameState := { st2 with allHints := st2.allHints ++ [hints] }
    let st4 : GameState :=
      if hints = List.replicate word.data.length HSym.G then
        { st3 with won := true, isFinished := true }
      else st3
    (st4, Except.ok hints)

/-! ## The solver (`WordlePlayer`) -/

/-- `self.wordlen` (always 5 in this repository). -/
def wordlen : Nat := 5

/-- One entry of `self.chars`: the per-position excluded-letter set
`chars[i]["no"]` and the pinned letter `chars[i]["yes"]`. -/
structure PosC where
  no : Finset Char
  yes : Option Char
deriving DecidableEq

/-- The constraint/selector state of `WordlePlayer`.  `wordFreqs` is the
ordered word→frequency dictionary; `chars` and `inWord` are the tracker
state; `colorLines` and `wonGame` are the bookkeeping mutated by
`add_result`.  Game-facing fields (`_solution`, `guesses`, `num_guesses`)
are not read by the tracker, filter or selector and are omitted. -/
structure PlayerState where
  wordFreqs : List (String × ℚ)
  chars : Nat → PosC
  inWord : Finset Char
  colorLines : List (List Nat)
  wonGame : Bool

/-- The freshly initialised tracker (player.py lines 47-56). -/
def initPlayer (freqs : List (String × ℚ)) : PlayerState :=
  { wordFreqs := freqs
    chars := fun _ => { no := ∅, yes := none }
    inWord := ∅
    colorLines := []
    wonGame := false }

/-- Pointwise update of the `chars` list at one position. -/
def setChar (f : Nat → PosC) (i : Nat) (pc : PosC) : Nat → PosC :=
  fun j => if j = i then pc else f j

/-- `WordlePlayer.wrong_position` (player.py lines 106-109). -/
def wrong_position (st : PlayerState) (letter : Char) (position : Nat) :
    PlayerState :=
  let l := letter.toLower
  { st with
    chars := setChar st.chars position
      { st.chars position with no := insert l (st.chars position).no }
    inWord := insert l st.inWord }

/-- `WordlePlayer.correct` (player.py lines 111-113). -/
def correct (st : PlayerState) (letter : Char) (position : Nat) :
    PlayerState :=
  let l := letter.toLower
  { st with
    chars := setChar st.chars position
      { st.chars position with yes := some l } }

/-- `WordlePlayer.not_in_word` (player.py lines 115-118): the letter is
added to the excluded set of every position. -/
def not_in_word (st : PlayerState) (letter : Char) : PlayerState :=
  let l := letter.toLower
  { st with
    chars := fun j =>
      if j < wordlen then
        { st.chars j with no := insert l (st.chars j).no }
      else st.chars j }

/-- The symbol→handler dispatch of `add_result`
(`{"G": correct, "Y": wrong_position, "B": not_in_word}`). -/
def applySym (st : PlayerState) (c : Char) (i : Nat) : HSym → PlayerState
  | HSym.G => correct st c i
  | HSym.Y => wrong_position st c i
  | HSym.B => not_in_word st c

/-- The indexed (position, letter, symbol) actions of one
`add_result(word, result)` call, in application order. -/
def acts (word : String) (result : List HSym) : List (Nat × Char × HSym) :=
  (word.data.zip result).enum.map (fun x => (x.1, x.2.1, x.2.2))

/-- Sequential application of the handler actions. -/
def applyActs (st : PlayerState) : List (Nat × Char × HSym) → PlayerState
  | [] => st
  | (i, c, s) :: rest => applyActs (applySym st c i s) rest

/-- The plotting code of `add_result`: G→3 (green), Y→2 (yellow),
B→1 (black). -/
def symColor : HSym → Nat
  | HSym.G => 3
  | HSym.Y => 2
  | HSym.B => 1

/-- `WordlePlayer.add_result` (player.py lines 120-131). -/
def add_result (st : PlayerState) (word : String) (result : List HSym) :
    PlayerState :=
  let st1 := applyActs st (acts word result)
  { st1 with
    colorLines := st1.colorLines ++ [result.map symColor]
    wonGame :=
      if result = List.replicate word.data.length HSym.G then true
      else st1.wonGame }

/-- The per-position regex atom of `_re_str_for_pos` applied to one
character: a pinned letter matches only itself, otherwise the character
class `[^…]` (an empty excluded set gives `.`, which accepts any
character). -/
def posOk (pc : PosC) (c : Char) : Bool :=
  match pc.yes with
  | some y => c = y
  | none => decide (c ∉ pc.no)

/-- The anchored main regex of `_update_regexes`: exactly `wordlen`
characters, each matching its position atom. -/
def matchesMain (st : PlayerState) (w : String) : Bool :=
  w.data.length = wordlen &&
    w.data.enum.all (fun ic => posOk (st.chars ic.1) ic.2)

/-- `WordlePlayer._matches_all_regexes` (player.py lines 82-86): the main
regex plus one `^.*letter` regex per letter of `in_word`. -/
def matchesAllRegexes (st : PlayerState) (w : String) : Bool :=
  matchesMain st w && decide (∀ l ∈ st.inWord, l ∈ w.data)

/-- `WordlePlayer._filter_words` (player.py lines 88-89): keep the words of
the frequency dictionary, in order, that match every regex. -/
def filterWords (st : PlayerState) : List String :=
  (st.wordFreqs.map Prod.fst).filter (fun w => matchesAllRegexes st w)

/-! ## Scoring and guess selection (`_update` / `next_word`) -/

/-- One `Counter` increment: bump the count of key `k`, inserting it with
count 1 when absent (keys keep first-seen order, as in Python). -/
def bump (m : List ((Nat × Char) × Nat)) (k : Nat × Char) :
    List ((Nat × Char) × Nat) :=
  if (m.find? (fun p => p.1 = k)).isSome then
    m.map (fun p => if p.1 = k then (p.1, p.2 + 1) else p)
  else m ++ [(k, 1)]

/-- The `(i, l)` pairs counted by `_score_letters`:
`[(i, l) for w in filtered_words for i, l in enumerate(w)]`. -/
def letterPairs (ws : List String) : List (Nat × Char) :=
  (ws.map (fun w => w.data.enum)).flatten

/-- `WordlePlayer._score_letters` (player.py lines 91-96).  Returns `none`
when `max` is applied to an empty value list (Python raises
`ValueError: max() arg is an empty sequence`). -/
def score_letters (filtered : List String) :
    Option (List ((Nat × Char) × ℚ)) :=
  let counter := (letterPairs filtered).foldl bump []
  let vals : List Nat := counter.map (fun p => p.2)
  match vals.max? with
  | none => none
  | some M => some (counter.map (fun p => (p.1, (p.2 : ℚ) / (M : ℚ))))

/-- Dictionary lookup in the letter-score table; `none` models `KeyError`. -/
def dictGet (m : List ((Nat × Char) × ℚ)) (k : Nat × Char) : Option ℚ :=
  (m.find? (fun p => p.1 = k)).map (fun p => p.2)

/-- Dictionary lookup in `word_freqs`; `none` models `KeyError`. -/
def freqGet (freqs : List (String × ℚ)) (w : String) : Option ℚ :=
  (freqs.find? (fun p => p.1 = w)).map (fun p => p.2)

/-- `WordlePlayer._score_one_word` (player.py lines 98-101):
`(avg_letter_score * unique_letters) + word_freqs[word]`. -/
def score_one_word (ls : List ((Nat × Char) × ℚ))
    (freqs : List (String × ℚ)) (word : String) : Option ℚ := do
  let xs ← word.data.enum.mapM (fun il => dictGet ls il)
  let fr ← freqGet freqs word
  let avg := xs.sum / (wordlen : ℚ)
  pure (avg * ((word.data.dedup.length : ℚ)) + fr)

/-- Python tuple comparison `(score, word) <= (score', word')`. -/
def pairLe (a b : ℚ × String) : Bool :=
  decide (a.1 < b.1 ∨ (a.1 = b.1 ∧ (a.2 < b.2 ∨ a.2 = b.2)))

/-- Stable insertion into an ascending list (the behaviour of Python's
stable `sorted` on the comparisons `pairLe` decides). -/
def insSorted (a : ℚ × String) : List (ℚ × String) → List (ℚ × String)
  | [] => [a]
  | b :: l => if pairLe a b then a :: b :: l else b :: insSorted a l

/-- `list(reversed(sorted(l)))` for the `(score, word)` pairs. -/
def pySortRev (l : List (ℚ × String)) : List (ℚ × String) :=
  (l.foldr insSorted []).reverse

/-- `WordlePlayer._score_words` (player.py lines 103-104). -/
def score_words (ls : List ((Nat × Char) × ℚ)) (freqs : List (String × ℚ))
    (filtered : List String) : Option (List (ℚ × String)) := do
  let scored ← filtered.mapM
    (fun w => (score_one_word ls freqs w).map (fun s => (s, w)))
  pure (pySortRev scored)

/-- `WordlePlayer.next_word` (player.py lines 133-138) together with the
`_update` recomputation it triggers (lines 60-64).  The outer `none`
models an exception escaping `_update`; `some none` is the explicit
`return None` of the empty-`word_scores` branch. -/
def next_word (st : PlayerState) : Option (Option String) := do
  let filtered := filterWords st
  let ls ← score_letters filtered
  let ws ← score_words ls st.wordFreqs filtered
  pure (match ws with
        | [] => none
        | x :: _ => some x.2)

/-- The tracker state reached from a fresh player after guessing the words
`ws` in order, folding in the hint the game computes against solution `s`
after each guess (the per-game loop of bin/auto_play.py and
`WordlePlayer.play`). -/
def playStates (freqs : List (String × ℚ)) (s : String)
    (ws : List String) : PlayerState :=
  ws.foldl (fun st w => add_result st w (naiveHint w.data s.data))
    (initPlayer freqs)

/-- Positions of `word` that hold letter `c` and were not marked Black. -/
def nonBlackCountFor (c : Char) (word : List Char) (h : List HSym) : Nat :=
  ((word.zip h).filter (fun p => p.1 = c && !(p.2 = HSym.B))).length

/-- A small in-progress game used by several concrete instantiations. -/
def gRepeat : GameState :=
  { solution := "slate"
    validWords := ["crane", "slate"]
    maxGuesses := 6
    won := false
    isFinished := false
    guesses := []
    allHints := [] }

/-- A finished, won game used by concrete instantiations. -/
def gDone : GameState :=
  { solution := "slate"
    validWords := ["crane", "slate"]
    maxGuesses := 6
    won := true
    isFinished := true
    guesses := ["slate"]
    allHints := [[HSym.G, HSym.G, HSym.G, HSym.G, HSym.G]] }

/-- All letters of the word are already lowercase (the repository's word
lists are lowercase and `WordleGame.guess` lowercases its input). -/
def isLowerWord (w : String) : Prop := ∀ c ∈ w.data, c.toLower = c

instance (w : String) : Decidable (isLowerWord w) := by
  unfold isLowerWord; infer_instance

/-- The tracker invariant maintained while playing one game against a
fixed solution `s`: every pinned letter agrees with the solution and the
solution's letter at a position is never in that position's excluded set. -/
def TrInv (s : String) (st : PlayerState) : Prop :=
  ∀ i, ((st.chars i).yes = none ∨
        (∃ sc, s.data[i]? = some sc ∧ (st.chars i).yes = some sc)) ∧
       (∀ sc, s.data[i]? = some sc → sc ∉ (st.chars i).no)

/-! ## Characterisation of the tracker state after a batch of actions

The handlers only ever insert into the per-position `no` sets and `in_word`
and overwrite per-position `yes` entries.  The lemmas below describe the
three components of the state after `applyActs` in closed form; they drive
the idempotence and monotonicity proofs. -/

/-- Action `a` inserts letter `c` into the excluded set of position `i`:
either a Yellow at exactly that position, or a Black (which excludes the
letter at every position below `wordlen`). -/
def insertsNo (i : Nat) (c : Char) (a : Nat × Char × HSym) : Prop :=
  (a.2.2 = HSym.Y ∧ a.1 = i ∧ a.2.1.toLower = c) ∨
  (a.2.2 = HSym.B ∧ i < wordlen ∧ a.2.1.toLower = c)

/-- Action `a` inserts letter `c` into `in_word` (only Yellows do). -/
def insertsIn (c : Char) (a : Nat × Char × HSym) : Prop :=
  a.2.2 = HSym.Y ∧ a.2.1.toLower = c

/-- The last Green letter a list of actions writes at position `i`. -/
def lastG : List (Nat × Char × HSym) → Nat → Option Char
  | [], _ => none
  | (j, ch, HSym.G) :: rest, i =>
    match lastG rest i with
    | some c => some c
    | none => if j = i then some ch.toLower else none
  | _ :: rest, i => lastG rest i

/-- First-biased choice between two optional letters. -/
def oget (o d : Option Char) : Option Char :=
  match o with
  | some c => some c
  | none => d

lemma applySym_wordFreqs (st : PlayerState) (c : Char) (i : Nat) (s : HSym) :
    (applySym st c i s).wordFreqs = st.wordFreqs := by
  cases s <;> rfl

lemma applyActs_wordFreqs (A : List (Nat × Char × HSym)) :
    ∀ st : PlayerState, (applyActs st A).wordFreqs = st.wordFreqs := by
  induction A with
  | nil => intro st; rfl
  | cons hd rest ih =>
    intro st
    obtain ⟨j, ch, s⟩ := hd
    simp only [applyActs]
    rw [ih, applySym_wordFreqs]

lemma add_result_wordFreqs (st : PlayerState) (w : String) (h : List HSym) :
    (add_result st w h).wordFreqs = st.wordFreqs := by
  show (applyActs st (acts w h)).wordFreqs = st.wordFreqs
  exact applyActs_wordFreqs _ _

lemma add_result_chars (st : PlayerState) (w : String) (h : List HSym) :
    (add_result st w h).chars = (applyActs st (acts w h)).chars := rfl

lemma add_result_inWord (st : PlayerState) (w : String) (h : List HSym) :
    (add_result st w h).inWord = (applyActs st (acts w h)).inWord := rfl

lemma applySym_no_mem (st : PlayerState) (ch : Char) (j : Nat) (s : HSym)
    (i : Nat) (c : Char) :
    c ∈ ((applySym st ch j s).chars i).no ↔
      c ∈ (st.chars i).no ∨ insertsNo i c (j, ch, s) := by
  cases s with
  | G =>
    simp only [applySym, correct, setChar, insertsNo]
    by_cases hij : i = j
    · subst hij; simp
    · simp [hij]
  | Y =>
    simp only [applySym, wrong_position, setChar, insertsNo]
    by_cases hij : i = j
    · subst hij; simp [Finset.mem_insert]
      constructor
      · rintro (rfl | hmem)
        · exact Or.inr rfl
        · exact Or.inl hmem
      · rintro (hmem | rfl)
        · exact Or.inr hmem
        · exact Or.inl rfl
    · simp only [if_neg hij]
      simp
      intro hji
      exact absurd hji.symm hij
  | B =>
    simp only [applySym, not_in_word, insertsNo]
    by_cases hi : i < wordlen
    · simp [hi, Finset.mem_insert]
      constructor
      · rintro (rfl | hmem)
        · exact Or.inr rfl
        · exact Or.inl hmem
      · rintro (hmem | rfl)
        · exact Or.inr hmem
        · exact Or.inl rfl
    · simp [hi]

lemma mem_no_applyActs (A : List (Nat × Char × HSym)) :
    ∀ (st : PlayerState) (i : Nat) (c : Char),
    c ∈ ((applyActs st A).chars i).no ↔
      c ∈ (st.chars i).no ∨ ∃ a ∈ A, insertsNo i c a := by
  induction A with
  | nil => intro st i c; simp [applyActs]
  | cons hd rest ih =>
    intro st i c
    obtain ⟨j, ch, s⟩ := hd
    simp only [applyActs]
    rw [ih, applySym_no_mem, List.exists_mem_cons_iff]
    tauto

lemma applySym_inWord_mem (st : PlayerState) (ch : Char) (j : Nat) (s : HSym)
    (c : Char) :
    c ∈ (applySym st ch j s).inWord ↔
      c ∈ st.inWord ∨ insertsIn c (j, ch, s) := by
  cases s with
  | G => simp [applySym, correct, insertsIn]
  | Y =>
    simp [applySym, wrong_position, insertsIn, Finset.mem_insert]
    constructor
    · rintro (rfl | hmem)
      · exact Or.inr rfl
      · exact Or.inl hmem
    · rintro (hmem | rfl)
      · exact Or.inr hmem
      · exact Or.inl rfl
  | B => simp [applySym, not_in_word, insertsIn]

lemma mem_inWord_applyActs (A : List (Nat × Char × HSym)) :
    ∀ (st : PlayerState) (c : Char),
    c ∈ (applyActs st A).inWord ↔
      c ∈ st.inWord ∨ ∃ a ∈ A, insertsIn c a := by
  induction A with
  | nil => intro st c; simp [applyActs]
  | cons hd rest ih =>
    intro st c
    obtain ⟨j, ch, s⟩ := hd
    simp only [applyActs]
    rw [ih, applySym_inWord_mem, List.exists_mem_cons_iff]
    tauto

lemma lastG_cons_G (j : Nat) (ch : Char) (rest : List (Nat × Char × HSym))
    (i : Nat) :
    lastG ((j, ch, HSym.G) :: rest) i =
      oget (lastG rest i) (if j = i then some ch.toLower else none) := by
  simp only [lastG, oget]

lemma yes_applyActs (A : List (Nat × Char × HSym)) :
    ∀ (st : PlayerState) (i : Nat),
    ((applyActs st A).chars i).yes = oget (lastG A i) ((st.chars i).yes) := by
  induction A with
  | nil => intro st i; simp [applyActs, lastG, oget]
  | cons hd rest ih =>
    intro st i
    obtain ⟨j, ch, s⟩ := hd
    simp only [applyActs]
    rw [ih]
    cases s with
    | G =>
      rw [lastG_cons_G]
      cases hl : lastG rest i with
      | some c => simp [oget]
      | none =>
        simp only [oget, applySym, correct, setChar]
        by_cases hij : i = j
        · subst hij; simp
        · simp only [if_neg hij, if_neg (fun h : j = i => hij h.symm)]
    | Y =>
      have : lastG ((j, ch, HSym.Y) :: rest) i = lastG rest i := rfl
      rw [this]
      simp only [applySym, wrong_position, setChar]
      by_cases hij : i = j
      · subst hij; simp
      · simp [hij]
    | B =>
      have : lastG ((j, ch, HSym.B) :: rest) i = lastG rest i := rfl
      rw [this]
      simp only [applySym, not_in_word]
      by_cases hi : i < wordlen
      · simp [hi]
      · simp [hi]

lemma lastG_some (A : List (Nat × Char × HSym)) (i : Nat) (c : Char) :
    lastG A i = some c → ∃ ch, (i, ch, HSym.G) ∈ A ∧ c = ch.toLower := by
  induction A with
  | nil => intro h; simp [lastG] at h
  | cons hd rest ih =>
    intro h
    obtain ⟨j, ch, s⟩ := hd
    cases s with
    | G =>
      rw [lastG_cons_G] at h
      cases hl : lastG rest i with
      | some c' =>
        rw [hl] at h
        simp [oget] at h
        obtain ⟨ch', hm, hc⟩ := ih (hl.trans (by rw [h]))
        exact ⟨ch', List.mem_cons_of_mem _ hm, hc⟩
      | none =>
        rw [hl] at h
        simp only [oget] at h
        by_cases hij : j = i
        · subst hij
          simp at h
          exact ⟨ch, List.mem_cons_self _ _, h.symm⟩
        · simp [hij] at h
    | Y =>
      have he : lastG ((j, ch, HSym.Y) :: rest) i = lastG rest i := rfl
      rw [he] at h
      obtain ⟨ch', hm, hc⟩ := ih h
      exact ⟨ch', List.mem_cons_of_mem _ hm, hc⟩
    | B =>
      have he : lastG ((j, ch, HSym.B) :: rest) i = lastG rest i := rfl
      rw [he] at h
      obtain ⟨ch', hm, hc⟩ := ih h
      exact ⟨ch', List.mem_cons_of_mem _ hm, hc⟩

lemma PosC_eq (a b : PosC) (hno : a.no = b.no) (hyes : a.yes = b.yes) :
    a = b := by
  cases a; cases b; simp_all

lemma filterWords_eq_of (s1 s2 : PlayerState)
    (hw : s1.wordFreqs = s2.wordFreqs)
    (hc : ∀ i, s1.chars i = s2.chars i)
    (hi : s1.inWord = s2.inWord) :
    filterWords s1 = filterWords s2 := by
  have hc' : s1.chars = s2.chars := funext hc
  unfold filterWords matchesAllRegexes matchesMain
  rw [hw, hc', hi]

/-! ## In-game hints: invariant and monotonicity machinery -/

lemma acts_eq (w : String) (h : List HSym) :
    acts w h = (w.data.zip h).enum := by
  unfold acts
  exact List.map_id _

lemma mem_acts (w : String) (h : List HSym) (a : Nat × Char × HSym) :
    a ∈ acts w h ↔
      w.data[a.1]? = some a.2.1 ∧ h[a.1]? = some a.2.2 := by
  rw [acts_eq, List.mem_enum_iff_getElem?, List.getElem?_zip_eq_some]

lemma naiveHint_getElem (w s : List Char) (i : Nat) :
    (naiveHint w s)[i]? = ((w.zip s)[i]?).map (fun p =>
      if p.2 = p.1 then HSym.G
      else if p.1 ∈ s then HSym.Y
      else HSym.B) := by
  unfold naiveHint
  rw [List.getElem?_map]

lemma mem_acts_naive (s w : String) (a : Nat × Char × HSym)
    (ha : a ∈ acts w (naiveHint w.data s.data)) :
    ∃ sc, w.data[a.1]? = some a.2.1 ∧ s.data[a.1]? = some sc ∧
      ((a.2.2 = HSym.G ∧ sc = a.2.1) ∨
       (a.2.2 = HSym.Y ∧ sc ≠ a.2.1 ∧ a.2.1 ∈ s.data) ∨
       (a.2.2 = HSym.B ∧ a.2.1 ∉ s.data)) := by
  rw [mem_acts] at ha
  obtain ⟨hw, hh⟩ := ha
  rw [naiveHint_getElem] at hh
  cases hz : (w.data.zip s.data)[a.1]? with
  | none => rw [hz] at hh; simp at hh
  | some p =>
    rw [hz] at hh
    simp only [Option.map_some'] at hh
    rw [List.getElem?_zip_eq_some] at hz
    obtain ⟨hz1, hz2⟩ := hz
    have hp1 : p.1 = a.2.1 := by
      rw [hw] at hz1
      exact (Option.some.inj hz1).symm
    have hf : (if p.2 = p.1 then HSym.G
        else if p.1 ∈ s.data then HSym.Y else HSym.B) = a.2.2 :=
      Option.some.inj hh
    rw [hp1] at hf
    refine ⟨p.2, hw, hz2, ?_⟩
    by_cases h1 : p.2 = a.2.1
    · left
      rw [if_pos h1] at hf
      exact ⟨hf.symm, h1⟩
    · by_cases h2 : a.2.1 ∈ s.data
      · right; left
        rw [if_neg h1, if_pos h2] at hf
        exact ⟨hf.symm, h1, h2⟩
      · right; right
        rw [if_neg h1, if_neg h2] at hf
        exact ⟨hf.symm, h2⟩

lemma TrInv_init (s : String) (freqs : List (String × ℚ)) :
    TrInv s (initPlayer freqs) := by
  intro i
  constructor
  · left; rfl
  · intro sc _
    simp [initPlayer]

lemma TrInv_add_result (s w : String) (st : PlayerState)
    (hs : isLowerWord s) (hw : isLowerWord w) (hst : TrInv s st) :
    TrInv s (add_result st w (naiveHint w.data s.data)) := by
  intro i
  constructor
  · rw [add_result_chars, yes_applyActs]
    cases hl : lastG (acts w (naiveHint w.data s.data)) i with
    | none => simpa [oget] using (hst i).1
    | some c =>
      simp only [oget]
      right
      obtain ⟨ch, hmem, rfl⟩ := lastG_some _ _ _ hl
      obtain ⟨sc, hwg, hsg, hcase⟩ := mem_acts_naive s w (i, ch, HSym.G) hmem
      rcases hcase with ⟨_, hsc⟩ | ⟨hY, _⟩ | ⟨hB, _⟩
      · refine ⟨sc, hsg, ?_⟩
        have hchw : ch ∈ w.data := List.getElem?_mem hwg
        rw [hw ch hchw, hsc]
      · cases hY
      · cases hB
  · intro sc hsc
    rw [add_result_chars, mem_no_applyActs]
    rintro (hold | ⟨a, hmem, hins⟩)
    · exact (hst i).2 sc hsc hold
    · obtain ⟨sc', hwg, hsg', hcase⟩ := mem_acts_naive s w a hmem
      have haw : a.2.1 ∈ w.data := List.getElem?_mem hwg
      rcases hins with ⟨hY, hai, hlow⟩ | ⟨hB, _, hlow⟩
      · rcases hcase with ⟨hG, _⟩ | ⟨_, hne, _⟩ | ⟨hB2, _⟩
        · rw [hY] at hG; cases hG
        · rw [hw _ haw] at hlow
          rw [hai, hsc] at hsg'
          exact hne ((Option.some.inj hsg').symm.trans hlow.symm)
        · rw [hY] at hB2; cases hB2
      · rcases hcase with ⟨hG, _⟩ | ⟨hYY, _, _⟩ | ⟨_, hnot⟩
        · rw [hB] at hG; cases hG
        · rw [hB] at hYY; cases hYY
        · rw [hw _ haw] at hlow
          rw [hlow] at hnot
          exact hnot (List.getElem?_mem hsc)

lemma TrInv_foldl (s : String) (hs : isLowerWord s) (ws : List String) :
    ∀ st : PlayerState, TrInv s st → (∀ u ∈ ws, isLowerWord u) →
      TrInv s (ws.foldl
        (fun st w => add_result st w (naiveHint w.data s.data)) st) := by
  induction ws with
  | nil => intro st h _; exact h
  | cons a rest ih =>
    intro st h hws
    simp only [List.foldl_cons]
    exact ih _ (TrInv_add_result s a st hs (hws a (by simp)) h)
      (fun u hu => hws u (by simp [hu]))

lemma TrInv_playStates (freqs : List (String × ℚ)) (s : String)
    (ws : List String) (hs : isLowerWord s)
    (hws : ∀ u ∈ ws, isLowerWord u) :
    TrInv s (playStates freqs s ws) :=
  TrInv_foldl s hs ws _ (TrInv_init s freqs) hws

lemma foldl_add_result_wordFreqs (s : String) (ws : List String) :
    ∀ st : PlayerState,
      (ws.foldl (fun st w => add_result st w (naiveHint w.data s.data))
        st).wordFreqs = st.wordFreqs := by
  induction ws with
  | nil => intro st; rfl
  | cons a rest ih =>
    intro st
    simp only [List.foldl_cons]
    rw [ih, add_result_wordFreqs]

lemma playStates_wordFreqs (freqs : List (String × ℚ)) (s : String)
    (ws : List String) : (playStates freqs s ws).wordFreqs = freqs :=
  foldl_add_result_wordFreqs s ws _

lemma matches_mono_step (s w : String) (st : PlayerState) (x : String)
    (hs : isLowerWord s) (hw : isLowerWord w) (hst : TrInv s st)
    (hx : matchesAllRegexes (add_result st w (naiveHint w.data s.data)) x
      = true) :
    matchesAllRegexes st x = true := by
  unfold matchesAllRegexes matchesMain at hx ⊢
  rw [Bool.and_eq_true, Bool.and_eq_true] at hx
  obtain ⟨⟨hlen, hall⟩, hin⟩ := hx
  rw [Bool.and_eq_true, Bool.and_eq_true]
  refine ⟨⟨hlen, ?_⟩, ?_⟩
  · rw [List.all_eq_true] at hall ⊢
    intro ic hic
    have hic' := hall ic hic
    rw [add_result_chars] at hic'
    unfold posOk at hic' ⊢
    rw [yes_applyActs] at hic'
    cases hl : lastG (acts w (naiveHint w.data s.data)) ic.1 with
    | some g =>
      rw [hl] at hic'
      simp only [oget] at hic'
      rw [decide_eq_true_iff] at hic'
      obtain ⟨ch, hmem, rfl⟩ := lastG_some _ _ _ hl
      obtain ⟨sc, hwg, hsg, hcase⟩ :=
        mem_acts_naive s w (ic.1, ch, HSym.G) hmem
      rcases hcase with ⟨_, hsc⟩ | ⟨hY, _⟩ | ⟨hB, _⟩
      · have hchw : ch ∈ w.data := List.getElem?_mem hwg
        have hg : ch.toLower = sc := by rw [hw ch hchw, hsc]
        rcases (hst ic.1).1 with hyes | ⟨sc2, hsg2, hyes⟩
        · rw [hyes]
          rw [decide_eq_true_iff]
          rw [hic', hg]
          exact (hst ic.1).2 sc hsg
        · rw [hyes]
          rw [decide_eq_true_iff]
          rw [hic', hg]
          exact Option.some.inj (hsg.symm.trans hsg2)
      · cases hY
      · cases hB
    | none =>
      rw [hl] at hic'
      simp only [oget] at hic'
      cases hyes : (st.chars ic.1).yes with
      | some y =>
        rw [hyes] at hic'
        exact hic'
      | none =>
        rw [hyes] at hic'
        show decide (ic.2 ∉ (st.chars ic.1).no) = true
        have hic2 : decide
            (ic.2 ∉ ((applyActs st (acts w (naiveHint w.data s.data))).chars
              ic.1).no) = true := hic'
        rw [decide_eq_true_iff] at hic2 ⊢
        intro hcmem
        exact hic2 ((mem_no_applyActs _ _ _ _).2 (Or.inl hcmem))
  · rw [decide_eq_true_iff] at hin ⊢
    intro l hl
    refine hin l ?_
    rw [add_result_inWord]
    exact (mem_inWord_applyActs _ _ _).2 (Or.inl hl)

/-! ## Selector machinery: the Counter, lookups and `mapM` -/

lemma find?_fst_isSome {κ β : Type} [DecidableEq κ] (m : List (κ × β))
    (k : κ) :
    ((m.find? (fun p => p.1 = k)).isSome = true) ↔ ∃ p ∈ m, p.1 = k := by
  rw [List.find?_isSome]
  constructor
  · rintro ⟨p, hp, hpk⟩
    exact ⟨p, hp, by simpa using hpk⟩
  · rintro ⟨p, hp, hpk⟩
    exact ⟨p, hp, by simpa using hpk⟩

lemma bump_keys (m : List ((Nat × Char) × Nat)) (k kb : Nat × Char) :
    (∃ p ∈ bump m kb, p.1 = k) ↔ (∃ p ∈ m, p.1 = k) ∨ k = kb := by
  have hfst : ∀ q : (Nat × Char) × Nat,
      (if q.1 = kb then (q.1, q.2 + 1) else q).1 = q.1 := by
    intro q; split <;> rfl
  unfold bump
  split
  case isTrue hfound =>
    constructor
    · rintro ⟨p, hp, hpk⟩
      rw [List.mem_map] at hp
      obtain ⟨q, hq, rfl⟩ := hp
      rw [hfst q] at hpk
      exact Or.inl ⟨q, hq, hpk⟩
    · rintro (⟨p, hp, hpk⟩ | rfl)
      · exact ⟨_, List.mem_map_of_mem _ hp, by rw [hfst p]; exact hpk⟩
      · rw [find?_fst_isSome] at hfound
        obtain ⟨p, hp, hpk⟩ := hfound
        exact ⟨_, List.mem_map_of_mem _ hp, by rw [hfst p]; exact hpk⟩
  case isFalse =>
    constructor
    · rintro ⟨p, hp, hpk⟩
      rcases List.mem_append.1 hp with h | h
      · exact Or.inl ⟨p, h, hpk⟩
      · right
        simp at h
        rw [h] at hpk
        simpa using hpk.symm
    · rintro (⟨p, hp, hpk⟩ | rfl)
      · exact ⟨p, List.mem_append_left _ hp, hpk⟩
      · exact ⟨(k, 1), List.mem_append_right _ (by simp), rfl⟩

lemma foldl_bump_key (L : List (Nat × Char)) :
    ∀ (acc : List ((Nat × Char) × Nat)) (k : Nat × Char),
    (k ∈ L ∨ ∃ p ∈ acc, p.1 = k) →
    ∃ p ∈ L.foldl bump acc, p.1 = k := by
  induction L with
  | nil =>
    intro acc k h
    rcases h with h | h
    · simp at h
    · exact h
  | cons a rest ih =>
    intro acc k h
    simp only [List.foldl_cons]
    apply ih
    rcases h with h | h
    · rcases List.mem_cons.1 h with rfl | h2
      · right
        rw [bump_keys]
        exact Or.inr rfl
      · left; exact h2
    · right
      rw [bump_keys]
      exact Or.inl h

lemma bump_ne_nil (m : List ((Nat × Char) × Nat)) (k : Nat × Char) :
    bump m k ≠ [] := by
  unfold bump
  split
  case isTrue h =>
    cases m with
    | nil => simp at h
    | cons a l => simp
  case isFalse => simp

lemma foldl_bump_ne_nil (L : List (Nat × Char)) :
    ∀ acc, acc ≠ [] → L.foldl bump acc ≠ [] := by
  induction L with
  | nil => intro acc h; exact h
  | cons a rest ih =>
    intro acc _
    simp only [List.foldl_cons]
    exact ih _ (bump_ne_nil acc a)

lemma mapM_option_isSome {α β : Type} (f : α → Option β) (L : List α)
    (h : ∀ a ∈ L, (f a).isSome = true) : ∃ ys, L.mapM f = some ys := by
  induction L with
  | nil => exact ⟨[], rfl⟩
  | cons a rest ih =>
    obtain ⟨y, hy⟩ :=
      Option.isSome_iff_exists.1 (h a (List.mem_cons_self a rest))
    obtain ⟨ys, hys⟩ := ih (fun b hb => h b (List.mem_cons_of_mem a hb))
    refine ⟨y :: ys, ?_⟩
    rw [List.mapM_cons, hy, hys]
    rfl

lemma letterPairs_singleton (w : String) :
    letterPairs [w] = w.data.enum := by
  simp [letterPairs]

/-! ## Claim theorems -/

/-- Claim C1: the claim asserts that for every letter the number of
positions marked Green or Yellow never exceeds that letter's count in the
solution, naming guess "SPEED" against solution "ABIDE".  The code's
single-pass hint loop violates this: it yields `BBYYY`, marking two
Yellows for the letter `e` although "abide" contains a single `e` (the
count-decrementing two-pass loop that would satisfy the claim is commented
out in the source). -/
theorem hint_overcounts_repeated_letters :
    naiveHint "speed".data "abide".data =
      [HSym.B, HSym.B, HSym.Y, HSym.Y, HSym.Y] ∧
    nonBlackCountFor 'e' "speed".data
      (naiveHint "speed".data "abide".data) = 2 ∧
    "abide".data.count 'e' = 1 := by decide

/-- Claim C2: the claim asserts that a word containing exactly the
surviving count of a letter marked Yellow in one position and Black in
another of the same guess still passes the filter.  The code's
`not_in_word` handler excludes a Black letter at every position
unconditionally, so after the single constraint ("rrats", YBBBB) — one
Yellow `r`, one Black `r` — the candidate "borne" (exactly one `r`, in an
allowed position) is rejected; indeed the filter rejects every word.
Before the constraint, "borne" matched all regexes. -/
theorem tracker_conflates_black_with_absent :
    matchesAllRegexes (initPlayer [("borne", 1)]) "borne" = true ∧
    filterWords (add_result (initPlayer [("borne", 1)]) "rrats"
      [HSym.Y, HSym.B, HSym.B, HSym.B, HSym.B]) = [] := by decide

/-- Claim C8: the claim asserts that on an empty candidate set the
selector returns the distinguished non-word result (None) without raising.
The code instead raises `ValueError` inside `_score_letters`
(`max` of an empty sequence) before the `return None` branch can run:
modelled by `next_word` returning `none` (the exception) rather than
`some none` (the explicit None). -/
theorem selector_raises_on_empty_candidates :
    filterWords (add_result (initPlayer [("crane", 1)]) "crane"
      (List.replicate 5 HSym.B)) = [] ∧
    next_word (add_result (initPlayer [("crane", 1)]) "crane"
      (List.replicate 5 HSym.B)) = none := by decide

/-- Claim C9: when the filtered candidate set contains exactly one word,
`next_word` returns that word: scoring the single candidate succeeds
(every letter key is in the Counter, the word is a key of `word_freqs`)
and the one-element score list starts with it. -/
theorem selector_returns_single_candidate (st : PlayerState) (w : String)
    (hfil : filterWords st = [w]) :
    next_word st = some (some w) := by
  have hwmem : w ∈ filterWords st := by
    rw [hfil]
    exact List.mem_cons_self _ _
  have hkm : w ∈ st.wordFreqs.map Prod.fst ∧
      matchesAllRegexes st w = true := by
    unfold filterWords at hwmem
    exact ⟨(List.mem_filter.1 hwmem).1, (List.mem_filter.1 hwmem).2⟩
  have hlen : w.data.length = wordlen := by
    have h := hkm.2
    unfold matchesAllRegexes matchesMain at h
    rw [Bool.and_eq_true, Bool.and_eq_true] at h
    exact of_decide_eq_true h.1.1
  have henum_ne : w.data.enum ≠ [] := by
    intro hc
    have h0 : w.data.enum.length = 0 := by rw [hc]; rfl
    rw [List.enum_length, hlen] at h0
    simp [wordlen] at h0
  have hctr_ne : w.data.enum.foldl bump [] ≠ [] := by
    obtain ⟨a, l, hc⟩ := List.exists_cons_of_ne_nil henum_ne
    rw [hc]
    simp only [List.foldl_cons]
    exact foldl_bump_ne_nil l _ (bump_ne_nil [] a)
  obtain ⟨M, hM⟩ : ∃ M,
      ((w.data.enum.foldl bump []).map (fun p => p.2)).max? = some M := by
    obtain ⟨p, rest, hc⟩ := List.exists_cons_of_ne_nil hctr_ne
    rw [hc]
    exact ⟨_, rfl⟩
  have hsl : score_letters [w] =
      some ((w.data.enum.foldl bump []).map
        (fun p => (p.1, (p.2 : ℚ) / (M : ℚ)))) := by
    simp only [score_letters, letterPairs_singleton, hM]
  have hdict : ∀ il ∈ w.data.enum,
      (dictGet ((w.data.enum.foldl bump []).map
        (fun p => (p.1, (p.2 : ℚ) / (M : ℚ)))) il).isSome = true := by
    intro il hil
    unfold dictGet
    rw [Option.isSome_map']
    rw [find?_fst_isSome]
    obtain ⟨q, hq1, hq2⟩ := foldl_bump_key _ _ il (Or.inl hil)
    exact ⟨(q.1, (q.2 : ℚ) / (M : ℚ)), List.mem_map_of_mem _ hq1, hq2⟩
  have hfreq : (freqGet st.wordFreqs w).isSome = true := by
    unfold freqGet
    rw [Option.isSome_map']
    rw [find?_fst_isSome]
    obtain ⟨p, hp, hpw⟩ := List.mem_map.1 hkm.1
    exact ⟨p, hp, hpw⟩
  obtain ⟨xs, hxs⟩ := mapM_option_isSome _ _ hdict
  obtain ⟨fr, hfr⟩ := Option.isSome_iff_exists.1 hfreq
  have hsow : score_one_word ((w.data.enum.foldl bump []).map
      (fun p => (p.1, (p.2 : ℚ) / (M : ℚ)))) st.wordFreqs w =
      some (xs.sum / (wordlen : ℚ) * ((w.data.dedup.length : ℚ)) + fr) := by
    simp only [score_one_word, hxs, hfr]
    rfl
  have hsw : score_words ((w.data.enum.foldl bump []).map
      (fun p => (p.1, (p.2 : ℚ) / (M : ℚ)))) st.wordFreqs [w] =
      some [(xs.sum / (wordlen : ℚ) * ((w.data.dedup.length : ℚ)) + fr, w)]
      := by
    simp only [score_words, List.mapM_cons, List.mapM_nil, hsow]
    rfl
  simp only [next_word, hfil, hsl, hsw, Option.bind_eq_bind, Option.some_bind]
  rfl

/-- Witness for `selector_returns_single_candidate`: a one-word
vocabulary with no constraints filters to itself and is selected. -/
theorem selector_returns_single_candidate_witness :
    filterWords (initPlayer [("crane", 1)]) = ["crane"] ∧
    next_word (initPlayer [("crane", 1)]) = some (some "crane") :=
  ⟨by decide,
   selector_returns_single_candidate (initPlayer [("crane", 1)]) "crane"
     (by decide)⟩

/-- Claim C3 counterexample: guessing "crane" twice in a fresh game —
`WordleGame.guess` has no repeat-guess check, so the second call succeeds
and appends the word a second time, contradicting the claim that a
repeated word fails with a validation error and is not appended. -/
theorem repeat_guess_not_rejected :
    (WordleGame.guess (WordleGame.guess gRepeat "crane").1 "crane").2 =
      Except.ok [HSym.B, HSym.B, HSym.G, HSym.B, HSym.G] ∧
    (WordleGame.guess (WordleGame.guess gRepeat "crane").1 "crane").1.guesses =
      ["crane", "crane"] := ⟨rfl, by decide⟩

/-- Claim C3 (amended): `WordleGame.guess` validates only membership in the
vocabulary and the terminal flag; a word already guessed this game is
accepted again and appended a second time. -/
theorem guess_accepts_repeats (st : GameState) (w : String)
    (hv : st.validWords.contains (normalizeWord w) = true)
    (hf : st.isFinished = false)
    (hrep : normalizeWord w ∈ st.guesses) :
    (WordleGame.guess st w).2 =
      Except.ok (naiveHint (normalizeWord w).data st.solution.data) ∧
    (WordleGame.guess st w).1.guesses = st.guesses ++ [normalizeWord w] := by
  simp only [WordleGame.guess, hv, hf, not_true, Bool.false_eq_true, if_false]
  refine ⟨trivial, ?_⟩
  split <;> split <;> rfl

/-- Witness for `guess_accepts_repeats` at a concrete repeated guess. -/
theorem guess_accepts_repeats_witness :
    (WordleGame.guess (WordleGame.guess gRepeat "crane").1 "crane").1.guesses
      = ["crane", "crane"] := by
  have h := guess_accepts_repeats (WordleGame.guess gRepeat "crane").1 "crane"
    (by decide) (by decide) (by decide)
  rw [h.2]
  decide

/-- Claim C4: whenever `WordleGame.guess` rejects a word (not in the
vocabulary, or game already finished) the whole game state is unchanged:
both failing assertions run before the first mutation. -/
theorem guess_rejection_preserves_state (st : GameState) (w : String)
    (h : exceptIsErr (WordleGame.guess st w).2 = true) :
    (WordleGame.guess st w).1 = st := by
  simp only [WordleGame.guess] at h ⊢
  split at h
  · split <;> rfl
  · split at h
    · split <;> rfl
    · simp [exceptIsErr] at h

/-- Witness for `guess_rejection_preserves_state`: a word outside the
vocabulary of an in-progress game, and a valid word in a finished game,
are both rejected with the state intact. -/
theorem guess_rejection_preserves_state_witness :
    exceptIsErr (WordleGame.guess gRepeat "zzzzz").2 = true ∧
    (WordleGame.guess gRepeat "zzzzz").1 = gRepeat ∧
    exceptIsErr (WordleGame.guess gDone "crane").2 = true ∧
    (WordleGame.guess gDone "crane").1 = gDone :=
  ⟨by decide, guess_rejection_preserves_state gRepeat "zzzzz" (by decide),
   by decide, guess_rejection_preserves_state gDone "crane" (by decide)⟩

/-- Claim C10: `WordleGame.guess` strips surrounding whitespace and
lowercases its input before validation and recording: two inputs with the
same normal form behave identically, and an accepted guess records the
normalized word and the hint computed from it. -/
theorem guess_normalizes_input (st : GameState) (x y : String)
    (hxy : normalizeWord x = normalizeWord y) :
    WordleGame.guess st x = WordleGame.guess st y ∧
    ∀ hints, (WordleGame.guess st x).2 = Except.ok hints →
      (WordleGame.guess st x).1.guesses = st.guesses ++ [normalizeWord x] ∧
      hints = naiveHint (normalizeWord x).data st.solution.data := by
  constructor
  · show WordleGame.guess st x = WordleGame.guess st y
    unfold WordleGame.guess
    rw [hxy]
  · intro hints hok
    by_cases hv : st.validWords.contains (normalizeWord x) = true
    · by_cases hf : st.isFinished = true
      · simp only [WordleGame.guess, hv, hf, not_true, Bool.false_eq_true,
          if_false] at hok
        simp at hok
      · have hf2 : st.isFinished = false := by
          revert hf; cases st.isFinished <;> simp
        simp only [WordleGame.guess, hv, hf2, not_true, Bool.false_eq_true,
          if_false] at hok
        simp only [Except.ok.injEq] at hok
        simp only [WordleGame.guess, hv, hf2, not_true, Bool.false_eq_true,
          if_false]
        exact ⟨by split <;> split <;> rfl, hok.symm⟩
    · have hv2 : st.validWords.contains (normalizeWord x) = false := by
        revert hv; cases st.validWords.contains (normalizeWord x) <;> simp
      simp only [WordleGame.guess, hv2] at hok
      simp at hok

/-- Witness for `guess_normalizes_input`: " CRANE " and "crane" behave
identically and the stored guess is the lowercase stripped word. -/
theorem guess_normalizes_input_witness :
    WordleGame.guess gRepeat " CRANE " = WordleGame.guess gRepeat "crane" ∧
    (WordleGame.guess gRepeat " CRANE ").1.guesses = ["crane"] := by
  have h := guess_normalizes_input gRepeat " CRANE " "crane" (by decide)
  refine ⟨h.1, ?_⟩
  have h2 := h.2 [HSym.B, HSym.B, HSym.G, HSym.B, HSym.G] rfl
  rw [h2.1]
  decide

lemma guess_rejects_finished (st : GameState) (hf : st.isFinished = true)
    (w : String) : exceptIsErr (WordleGame.guess st w).2 = true := by
  simp only [WordleGame.guess]
  split
  · rfl
  · simp [hf, exceptIsErr]

/-- Claim C5: for every accepted guess in a reachable state (`won` implies
`is_finished`) of a game with the standard limit of 6: an all-Green hint
moves the game to Won (both flags set); otherwise reaching 6 guesses moves
it to Lost (`is_finished` set, `won` still false); otherwise the game
stays in progress; and once finished every further guess is rejected. -/
theorem guess_state_transitions (st : GameState) (w : String)
    (hints : List HSym)
    (hinv : st.won = true → st.isFinished = true)
    (hmax : st.maxGuesses = 6)
    (h5 : ∀ u ∈ st.validWords, u.data.length = 5)
    (hok : (WordleGame.guess st w).2 = Except.ok hints) :
    (hints = List.replicate 5 HSym.G →
      (WordleGame.guess st w).1.won = true ∧
      (WordleGame.guess st w).1.isFinished = true) ∧
    (hints ≠ List.replicate 5 HSym.G →
      (WordleGame.guess st w).1.won = false ∧
      ((WordleGame.guess st w).1.guesses.length = 6 →
        (WordleGame.guess st w).1.isFinished = true) ∧
      ((WordleGame.guess st w).1.guesses.length ≠ 6 →
        (WordleGame.guess st w).1.isFinished = false)) ∧
    ((WordleGame.guess st w).1.isFinished = true →
      ∀ w2, exceptIsErr (WordleGame.guess (WordleGame.guess st w).1 w2).2
        = true) := by
  have hmem : normalizeWord w ∈ st.validWords := by
    by_cases hv : st.validWords.contains (normalizeWord w) = true
    · simpa using hv
    · exfalso
      have hv2 : st.validWords.contains (normalizeWord w) = false := by
        revert hv; cases st.validWords.contains (normalizeWord w) <;> simp
      simp only [WordleGame.guess, hv2] at hok
      simp at hok
  have hv : st.validWords.contains (normalizeWord w) = true := by
    simpa using hmem
  have hf2 : st.isFinished = false := by
    by_cases hf : st.isFinished = true
    · exfalso
      simp only [WordleGame.guess, hv, hf, not_true, Bool.false_eq_true,
        if_false] at hok
      simp at hok
    · revert hf; cases st.isFinished <;> simp
  have hwon : st.won = false := by
    cases hwb : st.won
    · rfl
    · exact absurd (hinv hwb) (by simp [hf2])
  have hlen : (normalizeWord w).data.length = 5 := h5 _ hmem
  refine ⟨?_, ?_, fun hfin w2 => guess_rejects_finished _ hfin w2⟩
  · intro hGr
    simp only [WordleGame.guess, hv, hf2, not_true, Bool.false_eq_true,
      if_false] at hok ⊢
    simp only [Except.ok.injEq] at hok
    rw [hlen, if_pos (hok.trans hGr)]
    exact ⟨rfl, rfl⟩
  · intro hne
    simp only [WordleGame.guess, hv, hf2, not_true, Bool.false_eq_true,
      if_false] at hok ⊢
    simp only [Except.ok.injEq] at hok
    rw [hlen, if_neg (fun hcon => hne (hok.symm.trans hcon))]
    refine ⟨?_, ?_, ?_⟩
    · split <;> simpa using hwon
    · intro hl
      split
      · rfl
      · exfalso
        split at hl <;> simp_all
    · intro hl
      split
      · exfalso
        split at hl <;> simp_all
      · simpa using hf2

/-- Witness for `guess_state_transitions`: guessing the solution in a
fresh game wins it. -/
theorem guess_state_transitions_witness :
    (WordleGame.guess gRepeat "slate").1.won = true ∧
    (WordleGame.guess gRepeat "slate").1.isFinished = true := by
  have h := guess_state_transitions gRepeat "slate"
    (List.replicate 5 HSym.G) (by decide) (by decide) (by decide) rfl
  exact h.1 rfl

/-- Claim C7: within one game (hints computed by the game's own hint
function against a fixed lowercase solution), every additional (guess,
hint) constraint can only shrink the filtered candidate list: each word
in the filter after one more constraint was already in the filter
before it. -/
theorem filter_monotone_in_game (freqs : List (String × ℚ)) (s w : String)
    (ws : List String) (x : String)
    (hs : isLowerWord s) (hws : ∀ u ∈ ws, isLowerWord u)
    (hw : isLowerWord w)
    (hx : x ∈ filterWords (playStates freqs s (ws ++ [w]))) :
    x ∈ filterWords (playStates freqs s ws) := by
  have hps : playStates freqs s (ws ++ [w]) =
      add_result (playStates freqs s ws) w (naiveHint w.data s.data) := by
    unfold playStates
    rw [List.foldl_append]
    rfl
  rw [hps] at hx
  unfold filterWords at hx ⊢
  rw [add_result_wordFreqs] at hx
  rw [List.mem_filter] at hx ⊢
  exact ⟨hx.1, matches_mono_step s w _ x hs hw
    (TrInv_playStates freqs s ws hs hws) hx.2⟩

/-- Witness for `filter_monotone_in_game`: after one "crane" guess against
solution "slate", "slate" survives the filter, hence was in the
unconstrained filter as well. -/
theorem filter_monotone_in_game_witness :
    "slate" ∈ filterWords (playStates [("slate", 1)] "slate" ["crane"]) ∧
    "slate" ∈ filterWords (playStates [("slate", 1)] "slate" []) := by
  refine ⟨by decide, ?_⟩
  exact filter_monotone_in_game [("slate", 1)] "slate" "crane" [] "slate"
    (by decide) (by decide) (by decide) (by decide)

/-- Claim C6: applying the same (word, hint) constraint twice and then
filtering yields exactly the same candidate list as applying it once —
all handler updates are set insertions or overwrites with the same value,
so the second application leaves the constraint state unchanged. -/
theorem tracker_filter_idempotent (st : PlayerState) (w : String)
    (h : List HSym) :
    filterWords (add_result (add_result st w h) w h) =
      filterWords (add_result st w h) := by
  apply filterWords_eq_of
  · rw [add_result_wordFreqs, add_result_wordFreqs]
  · intro i
    rw [add_result_chars, add_result_chars]
    apply PosC_eq
    · apply Finset.ext
      intro c
      rw [mem_no_applyActs, mem_no_applyActs]
      conv_lhs => rw [add_result_chars]
      rw [mem_no_applyActs]
      tauto
    · rw [yes_applyActs, yes_applyActs]
      conv_lhs => rw [add_result_chars, yes_applyActs]
      cases lastG (acts w h) i <;> simp [oget]
  · rw [add_result_inWord, add_result_inWord]
    apply Finset.ext
    intro c
    rw [mem_inWord_applyActs, mem_inWord_applyActs]
    conv_lhs => rw [add_result_inWord]
    rw [mem_inWord_applyActs]
    tauto
